import Mathlib

/-!
Verification development for the RAG_DocsAssistant retrieval pipeline.

The Python sources are embedded shallowly:
* strings are `List Char` (`Str`);
* the cross-encoder relevance scores (floats whose only use is comparison and
  sorting) are modelled as integers;
* fallible operations return `Except`;
* library collaborators that are not part of the repository (the text splitter,
  the BM25/Chroma retrievers, the query-expansion LLM) enter as function
  parameters, except where a claim is about their behaviour, in which case a
  definition modelled from the spec is used and marked as such.
-/

namespace RagAssist

/-- Text is modelled as a list of characters. -/
abbrev Str := List Char

/-- Conversion helper from Lean string literals to `Str`. -/
def toChars (s : String) : Str := s.data

/-- `leadsB needle hay` is true when `needle` occurs at the very front of
`hay` (the primitive used for Python substring containment). -/
def leadsB : Str → Str → Bool
  | [], _ => true
  | _ :: _, [] => false
  | a :: as, b :: bs => a == b && leadsB as bs

/-- `substrB needle hay` embeds Python's `needle in hay` test on strings:
`needle` occurs contiguously somewhere inside `hay`. -/
def substrB (needle : Str) : Str → Bool
  | [] => needle.isEmpty
  | b :: bs => leadsB needle (b :: bs) || substrB needle bs

/-! ### A stable descending sort

Python's `sorted(xs, key=..., reverse=True)` is a stable sort putting larger
keys first.  It is embedded as a stable insertion sort. -/

/-- Insert `x` into a descending-sorted list, after every element whose key is
at least `key x` (this placement makes the overall sort stable, as Python's
`sorted` is). -/
def insertDescBy [LinearOrder β] (key : α → β) (x : α) : List α → List α
  | [] => [x]
  | y :: ys => if key y < key x then x :: y :: ys else y :: insertDescBy key x ys

/-- Stable sort by descending key, embedding `sorted(xs, key=..., reverse=True)`. -/
def sortDescBy [LinearOrder β] (key : α → β) (l : List α) : List α :=
  l.foldl (fun acc x => insertDescBy key x acc) []

theorem insertDescBy_perm [LinearOrder β] (key : α → β) (x : α) (l : List α) :
    List.Perm (insertDescBy key x l) (x :: l) := by
  induction l with
  | nil => exact List.Perm.refl _
  | cons y ys ih =>
    by_cases h : key y < key x
    · simp only [insertDescBy, if_pos h]
      exact List.Perm.refl _
    · simp only [insertDescBy, if_neg h]
      exact (ih.cons y).trans (List.Perm.swap x y ys)

theorem sortDescBy_go_perm [LinearOrder β] (key : α → β) :
    ∀ (l acc : List α),
      List.Perm (List.foldl (fun a x => insertDescBy key x a) acc l) (l ++ acc) := by
  intro l
  induction l with
  | nil => intro acc; simp
  | cons x xs ih =>
    intro acc
    have h1 : List.Perm (List.foldl (fun a x => insertDescBy key x a)
        (insertDescBy key x acc) xs) (xs ++ insertDescBy key x acc) := ih _
    have h2 : List.Perm (xs ++ insertDescBy key x acc) (xs ++ (x :: acc)) :=
      List.Perm.append_left xs (insertDescBy_perm key x acc)
    have h3 : List.Perm (xs ++ (x :: acc)) (x :: (xs ++ acc)) := List.perm_middle
    exact ((h1.trans h2).trans h3)

theorem sortDescBy_perm [LinearOrder β] (key : α → β) (l : List α) :
    List.Perm (sortDescBy key l) l := by
  have h := sortDescBy_go_perm key l []
  simpa [sortDescBy] using h

theorem mem_insertDescBy [LinearOrder β] (key : α → β) (x : α) (l : List α) (a : α) :
    a ∈ insertDescBy key x l ↔ a = x ∨ a ∈ l := by
  have h := (insertDescBy_perm key x l).mem_iff (a := a)
  simpa using h

/-- Inserting into a list sorted by descending key keeps it sorted. -/
theorem insertDescBy_pairwise [LinearOrder β] (key : α → β) (x : α) (l : List α)
    (h : l.Pairwise (fun a b => key b ≤ key a)) :
    (insertDescBy key x l).Pairwise (fun a b => key b ≤ key a) := by
  induction l with
  | nil => simp [insertDescBy]
  | cons y ys ih =>
    rcases List.pairwise_cons.mp h with ⟨hy, hys⟩
    by_cases hc : key y < key x
    · simp only [insertDescBy, if_pos hc]
      refine List.pairwise_cons.mpr ⟨?_, h⟩
      intro z hz
      rcases List.mem_cons.mp hz with rfl | hz
      · exact le_of_lt hc
      · exact le_trans (hy z hz) (le_of_lt hc)
    · simp only [insertDescBy, if_neg hc]
      refine List.pairwise_cons.mpr ⟨?_, ih hys⟩
      intro z hz
      rcases (mem_insertDescBy key x ys z).mp hz with rfl | hz
      · exact le_of_not_lt hc
      · exact hy z hz

theorem sortDescBy_pairwise [LinearOrder β] (key : α → β) (l : List α) :
    (sortDescBy key l).Pairwise (fun a b => key b ≤ key a) := by
  suffices h : ∀ (l acc : List α), acc.Pairwise (fun a b => key b ≤ key a) →
      (List.foldl (fun a x => insertDescBy key x a) acc l).Pairwise
        (fun a b => key b ≤ key a) by
    exact h l [] List.Pairwise.nil
  intro l
  induction l with
  | nil => intro acc hacc; simpa using hacc
  | cons x xs ih =>
    intro acc hacc
    exact ih _ (insertDescBy_pairwise key x acc hacc)

/-! ### `LocalCrossEncoderReranker.compress_documents` (src/rag/retrieval.py:36-70) -/

/-- A LangChain `Document` as `compress_documents` sees it: only `page_content`
is read (the metadata travels through untouched, so it is not modelled). -/
structure LCDoc where
  pageContent : Str
deriving DecidableEq

/-- The error raised at src/rag/retrieval.py:60 (`RuntimeError`, the spec's
`ModelUnavailable`). -/
inductive RerankError where
  | modelUnavailable
deriving DecidableEq

/-- Embedding of `LocalCrossEncoderReranker.compress_documents`
(src/rag/retrieval.py:53-70).  `ce` is the `self.cross_encoder` field: `none`
when the constructor's `CrossEncoder(...)` call failed (retrieval.py:42-51),
otherwise a scoring function standing for `self.cross_encoder.predict` on one
`(query, passage)` pair; the float scores are modelled as integers, which is
faithful because the code only compares them.  The empty-input test at line 56
comes before the `None` test at line 59; the sort at line 68 is Python's
`sorted(..., key=lambda x: x[1], reverse=True)`; line 70 truncates to
`self.top_n`. -/
def compress_documents (ce : Option (Str → Str → Int)) (topN : Nat)
    (documents : List LCDoc) (query : Str) : Except RerankError (List LCDoc) :=
  if documents.isEmpty then .ok []
  else
    match ce with
    | none => .error .modelUnavailable
    | some pred =>
      let docsWithScores := documents.map (fun d => (d, pred query d.pageContent))
      let sorted := sortDescBy (fun p => p.2) docsWithScores
      .ok ((sorted.take topN).map Prod.fst)

theorem compress_documents_score_assoc (pred : Str → Str → Int) (topN : Nat)
    (documents : List LCDoc) (query : Str) :
    ∀ p ∈ (sortDescBy (fun p : LCDoc × Int => p.2)
        (documents.map (fun d => (d, pred query d.pageContent)))).take topN,
      p.2 = pred query p.1.pageContent := by
  intro p hp
  have hmem : p ∈ sortDescBy (fun p : LCDoc × Int => p.2)
      (documents.map (fun d => (d, pred query d.pageContent))) :=
    (List.take_sublist _ _).mem hp
  have hmem2 : p ∈ documents.map (fun d => (d, pred query d.pageContent)) :=
    (sortDescBy_perm _ _).mem_iff.mp hmem
  rcases List.mem_map.mp hmem2 with ⟨d, _, rfl⟩
  rfl

/-- **C2.**  For every non-empty candidate sequence,
`LocalCrossEncoderReranker.compress_documents` returns at most `top_n`
documents, sorted in descending order of the cross-encoder score of each
`(query, passage)` pair; on the empty candidate sequence it returns the empty
sequence whatever the model handle holds (in particular the model is never
consulted). -/
theorem compress_documents_topn_sorted (pred : Str → Str → Int) (topN : Nat)
    (documents : List LCDoc) (query : Str) (h : documents ≠ []) :
    ∃ l : List LCDoc,
      compress_documents (some pred) topN documents query = .ok l ∧
      l.length ≤ topN ∧
      l.Pairwise (fun a b => pred query b.pageContent ≤ pred query a.pageContent) ∧
      ∀ ce : Option (Str → Str → Int),
        compress_documents ce topN [] query = .ok [] := by
  have hne : documents.isEmpty = false := by
    cases documents with
    | nil => exact absurd rfl h
    | cons d ds => rfl
  refine ⟨((sortDescBy (fun p : LCDoc × Int => p.2)
      (documents.map (fun d => (d, pred query d.pageContent)))).take topN).map
        Prod.fst, ?_, ?_, ?_, ?_⟩
  · simp only [compress_documents, hne, Bool.false_eq_true, if_false]
  · rw [List.length_map]
    exact List.length_take_le _ _
  · have hpw : ((sortDescBy (fun p : LCDoc × Int => p.2)
        (documents.map (fun d => (d, pred query d.pageContent)))).take topN).Pairwise
          (fun a b => b.2 ≤ a.2) :=
      (sortDescBy_pairwise _ _).sublist (List.take_sublist _ _)
    have hassoc := compress_documents_score_assoc pred topN documents query
    have hpw2 : ((sortDescBy (fun p : LCDoc × Int => p.2)
        (documents.map (fun d => (d, pred query d.pageContent)))).take topN).Pairwise
          (fun a b => pred query b.1.pageContent ≤ pred query a.1.pageContent) := by
      refine List.Pairwise.imp_of_mem ?_ hpw
      intro a b ha hb hle
      rw [← hassoc a ha, ← hassoc b hb]
      exact hle
    exact (List.pairwise_map).mpr hpw2
  · intro ce
    simp [compress_documents]

/-- Witness for C2 at a concrete input: two candidates, `top_n = 1`,
scores given by passage length. -/
theorem compress_documents_topn_sorted_witness :
    ∃ l : List LCDoc,
      compress_documents (some (fun _ p => (p.length : Int))) 1
          [⟨toChars "aa"⟩, ⟨toChars "bbb"⟩] (toChars "q") = .ok l ∧
      l.length ≤ 1 :=
  (compress_documents_topn_sorted (fun _ p => (p.length : Int)) 1
    [⟨toChars "aa"⟩, ⟨toChars "bbb"⟩] (toChars "q") (by decide)).imp
    (fun _ hl => ⟨hl.1, hl.2.1⟩)

/-- **C3.**  When the cross-encoder model failed to load (`self.cross_encoder`
is `None`), `compress_documents` on any non-empty candidate sequence fails with
the `ModelUnavailable` error (the `RuntimeError` of retrieval.py:60) instead of
returning the candidates unranked. -/
theorem compress_documents_model_unavailable (topN : Nat) (documents : List LCDoc)
    (query : Str) (h : documents ≠ []) :
    compress_documents none topN documents query = .error .modelUnavailable := by
  have hne : documents.isEmpty = false := by
    cases documents with
    | nil => exact absurd rfl h
    | cons d ds => rfl
  simp [compress_documents, hne]

/-- Witness for C3 at a concrete input. -/
theorem compress_documents_model_unavailable_witness :
    compress_documents none 4 [⟨toChars "aa"⟩] (toChars "q") =
      .error .modelUnavailable :=
  compress_documents_model_unavailable 4 [⟨toChars "aa"⟩] (toChars "q") (by decide)

/-- **C10.**  The empty-input check (retrieval.py:56) precedes the
model-availability check (retrieval.py:59): on the empty candidate sequence the
result is the empty sequence even when the model handle is `None`, so
`ModelUnavailable` is unreachable on empty input. -/
theorem compress_documents_empty_beats_model (topN : Nat) (query : Str) :
    compress_documents none topN [] query = .ok [] := by
  simp [compress_documents]

/-! ### `process_pdf` (src/utils/document_processor.py)

The section-header pattern at line 43 is the Python regex
`(?m)^([A-Z][A-Z0-9\s\-:]{5,})\n`, split with `re.split`.  It is embedded over
absolute character positions: a match starts at a line start `s` with an
uppercase letter; the quantified class then consumes characters greedily, and
backtracks so that the final character matched is a newline with at least five
class characters in between.  `re.split` takes the leftmost match, emits the
text before it and the captured group, and resumes scanning right after the
match. -/

/-- ASCII uppercase, the regex class `[A-Z]`. -/
def isUpperAZ (c : Char) : Bool := decide ('A' ≤ c) && decide (c ≤ 'Z')

/-- ASCII digit, the regex class `[0-9]`. -/
def isDigit09 (c : Char) : Bool := decide ('0' ≤ c) && decide (c ≤ '9')

/-- The regex class `\s` (Python whitespace; the ASCII cases, which is what
extracted PDF text and both sides of every statement below use). -/
def isPySpace (c : Char) : Bool :=
  c == ' ' || c == '\t' || c == '\n' || c == '\r' || c == '\x0b' || c == '\x0c'

/-- The character class `[A-Z0-9\s\-:]` of the section-header regex.  Note
that through `\s` it contains the newline and tab characters. -/
def inHeaderClass (c : Char) : Bool :=
  isUpperAZ c || isDigit09 c || isPySpace c || c == '-' || c == ':'

/-- Character of `t` at absolute position `i` (a null character out of range;
every use below is bounds-checked). -/
def charAt (t : Str) (i : Nat) : Char := t.getD i '\x00'

/-- Position `s` is a line start: the `(?m)^` anchor. -/
def isLineStart (t : Str) (s : Nat) : Bool := s == 0 || charAt t (s - 1) == '\n'

/-- `validSpan t s k` holds when, with an acceptable first character at `s`,
the regex tail `[A-Z0-9\s\-:]{5,}\n` can match the span `t[s+1..k]` ending
with the newline at position `k`: at least five class characters at positions
`s+1 .. k-1` and `t[k] = '\n'`. -/
def validSpan (t : Str) (s k : Nat) : Bool :=
  decide (s + 6 ≤ k) && decide (k < t.length) && (charAt t k == '\n') &&
    (List.range (k - (s + 1))).all (fun j => inHeaderClass (charAt t (s + 1 + j)))

/-- The greedy (largest) `k` with `validSpan t s k`, found as the last valid
position. -/
def lastValidEnd (t : Str) (s : Nat) : Option Nat :=
  (List.range t.length).foldl (fun acc k => if validSpan t s k then some k else acc) none

/-- Regex match attempt at position `s`: the anchor, the leading `[A-Z]`, then
the greedy tail.  Returns the end position `k` of the matched newline. -/
def matchEndAt (t : Str) (s : Nat) : Option Nat :=
  if decide (s < t.length) && isLineStart t s && isUpperAZ (charAt t s) then
    lastValidEnd t s
  else none

/-- Leftmost match scan from position `s`, with fuel (`re.split` scanning). -/
def firstMatchGo (t : Str) : Nat → Nat → Option (Nat × Nat)
  | _, 0 => none
  | s, fuel + 1 =>
    match matchEndAt t s with
    | some k => some (s, k)
    | none => firstMatchGo t (s + 1) fuel

/-- Leftmost regex match at or after position `p`. -/
def firstMatchFrom (t : Str) (p : Nat) : Option (Nat × Nat) :=
  firstMatchGo t p (t.length + 1 - p)

/-- `re.split` with one capturing group: the pieces between matches
interleaved with the captured groups (document_processor.py:44).  The fuel
always suffices because every match consumes at least seven characters; the
fuel-exhausted branch is unreachable and returns the remainder like the
no-match branch. -/
def splitGo (t : Str) : Nat → Nat → List Str
  | 0, p => [t.drop p]
  | fuel + 1, p =>
    match firstMatchFrom t p with
    | none => [t.drop p]
    | some (s, k) =>
      ((t.drop p).take (s - p)) :: ((t.drop s).take (k - s)) :: splitGo t fuel (k + 1)

/-- `sections = re.split(section_pattern, full_text)` (document_processor.py:44). -/
def reSplitSections (t : Str) : List Str := splitGo t (t.length + 1) 0

/-- The section title `"Introduction"` (document_processor.py:50). -/
def introStr : Str := toChars "Introduction"

/-- The section title `"General"` (document_processor.py:54). -/
def generalStr : Str := toChars "General"

/-- `zip(sections[1::2], sections[2::2])` over the tail of the split result
(document_processor.py:51): consecutive (title, content) pairs. -/
def pairize : List Str → List (Str × Str)
  | t :: b :: rest => (t, b) :: pairize rest
  | _ => []

/-- The `content_list` of (section title, section text) pairs built at
document_processor.py:48-54: when the split produced more than one piece, the
text before the first title becomes `"Introduction"`; otherwise the whole
document is the single section `"General"`. -/
def contentList (t : Str) : List (Str × Str) :=
  match reSplitSections t with
  | s0 :: s1 :: rest => (introStr, s0) :: pairize (s1 :: rest)
  | _ => [(generalStr, t)]

/-- Python `str.strip()` (ASCII whitespace cases). -/
def trim (l : Str) : Str :=
  ((l.dropWhile isPySpace).reverse.dropWhile isPySpace).reverse

/-- The `page` metadata value: a page number or the string `"N/A"`
(document_processor.py:74). -/
inductive PageNum where
  | na
  | pg (n : Nat)
deriving DecidableEq

/-- Page attribution for a chunk (document_processor.py:74-79): the first
entry of `pages_content` whose text contains `chunk_text[:max(50, len(chunk_text))]`
— note that `max` makes this slice always the entire chunk text. -/
def pageForChunk (pages : List (Str × Nat)) (chunkText : Str) : PageNum :=
  match pages.find? (fun p => substrB (chunkText.take (max 50 chunkText.length)) p.1) with
  | some p => .pg p.2
  | none => .na

/-- Written from the spec's words (§4.1 step 4, and claim C1): the page whose
text contains the chunk's leading substring of 50 characters, or the full
chunk when it is shorter than 50 characters (`List.take 50` is exactly that). -/
def pageForChunkSpecIntent (pages : List (Str × Nat)) (chunkText : Str) : PageNum :=
  match pages.find? (fun p => substrB (chunkText.take 50) p.1) with
  | some p => .pg p.2
  | none => .na

/-- The `pages_content` loop body (document_processor.py:33-37): pages are
numbered from 1, pages whose extracted text is falsy are skipped. -/
def pagesContentGo (i : Nat) : List Str → List (Str × Nat)
  | [] => []
  | t :: rest =>
    if t.isEmpty then pagesContentGo (i + 1) rest
    else (t, i + 1) :: pagesContentGo (i + 1) rest

/-- `pages_content` built from the per-page extracted texts. -/
def pagesContent (raw : List Str) : List (Str × Nat) := pagesContentGo 0 raw

/-- `full_text`: the same loop concatenates `text + "\n"` for each page with
text (document_processor.py:37). -/
def fullTextGo : List Str → Str
  | [] => []
  | t :: rest => (if t.isEmpty then [] else t ++ ['\n']) ++ fullTextGo rest

/-- One produced chunk with its metadata (document_processor.py:81-90); the
`chunk_id` counter is kept as the number rendered into `f"chunk_{n}"`, and
`source` (the constant file name) is not modelled. -/
structure PChunk where
  text : Str
  page : PageNum
  chunkId : Nat
  sectionTitle : Str
deriving DecidableEq

/-- The section loop of document_processor.py:63-90, with the running
`chunk_id_counter` as `k`.  The text splitter (LangChain's
`RecursiveCharacterTextSplitter`, an external library) is the parameter
`split`; it may fail, which the `except` clause of `process_pdf` turns into an
empty result.  A section whose stripped text is empty is skipped
(document_processor.py:67-68); the title is always stripped
(document_processor.py:66). -/
def sectionChunksGo (split : Str → Except Unit (List Str)) (pages : List (Str × Nat))
    (k : Nat) : List (Str × Str) → Except Unit (List PChunk)
  | [] => .ok []
  | (title, body) :: rest =>
    if (trim body).isEmpty then sectionChunksGo split pages k rest
    else
      match split body with
      | .error e => .error e
      | .ok cs =>
        match sectionChunksGo split pages (k + cs.length) rest with
        | .error e => .error e
        | .ok more =>
          .ok ((cs.enum.map (fun p =>
            { text := p.2, page := pageForChunk pages p.2, chunkId := k + p.1,
              sectionTitle := trim title })) ++ more)

/-- The outcome of opening the file and creating the `PdfReader`
(document_processor.py:27-28): the file may be missing
(`FileNotFoundError`), the reader may fail on a broken file, or we get the
pages, each of whose `extract_text()` calls (line 34) may itself raise or
return text (`[]` models the falsy `""`/`None` cases). -/
inductive OpenResult where
  | missing
  | unreadable
  | opened (pages : List (Except Unit Str))

/-- The spec's ingestion error taxonomy (§7): `NotFound` for the
`FileNotFoundError` handler, `ProcessingError` for the generic `Exception`
handler (document_processor.py:95-100). -/
inductive PdfFailure where
  | notFound
  | processingError
deriving DecidableEq

/-- Collect the per-page extraction results; the first raising page aborts the
whole `try` block. -/
def extractPages : List (Except Unit Str) → Except Unit (List Str)
  | [] => .ok []
  | .error e :: _ => .error e
  | .ok t :: rest =>
    match extractPages rest with
    | .error e => .error e
    | .ok ts => .ok (t :: ts)

/-- The body of the `try` block of `process_pdf` (document_processor.py:26-93)
with the failure classified as the spec's taxonomy: a missing file is
`NotFound`, every other raised error is `ProcessingError`. -/
def pdfBody (split : Str → Except Unit (List Str)) (o : OpenResult) :
    Except PdfFailure (List PChunk) :=
  match o with
  | .missing => .error .notFound
  | .unreadable => .error .processingError
  | .opened prs =>
    match extractPages prs with
    | .error _ => .error .processingError
    | .ok raw =>
      match sectionChunksGo split (pagesContent raw) 0 (contentList (fullTextGo raw)) with
      | .error _ => .error .processingError
      | .ok cs => .ok cs

/-- `process_pdf` as its caller sees it: the two `except` handlers
(document_processor.py:95-100) catch every failure and return the empty list,
discarding whatever was accumulated inside the `try`. -/
def process_pdf (split : Str → Except Unit (List Str)) (o : OpenResult) : List PChunk :=
  match pdfBody split o with
  | .error _ => []
  | .ok cs => cs

/-! ### Facts about the regex scan -/

theorem foldl_lastTrue_none (p : Nat → Bool) :
    ∀ n, (List.range n).foldl (fun acc k => if p k then some k else acc) none = none →
      ∀ k, k < n → p k = false := by
  intro n
  induction n with
  | zero => intro _ k hk; omega
  | succ n ih =>
    intro h k hk
    rw [List.range_succ, List.foldl_append] at h
    by_cases hp : p n = true
    · simp [hp] at h
    · simp only [List.foldl_cons, List.foldl_nil, if_neg hp] at h
      rcases Nat.lt_succ_iff_lt_or_eq.mp hk with hk' | rfl
      · exact ih h k hk'
      · exact Bool.eq_false_iff.mpr hp

theorem foldl_lastTrue_some (p : Nat → Bool) :
    ∀ n k, (List.range n).foldl (fun acc k => if p k then some k else acc) none = some k →
      p k = true ∧ k < n ∧ ∀ j, j < n → p j = true → j ≤ k := by
  intro n
  induction n with
  | zero => intro k h; simp at h
  | succ n ih =>
    intro k h
    rw [List.range_succ, List.foldl_append] at h
    by_cases hp : p n = true
    · simp only [List.foldl_cons, List.foldl_nil, if_pos hp, Option.some.injEq] at h
      subst h
      exact ⟨hp, Nat.lt_succ_self n, fun j hj _ => Nat.lt_succ_iff.mp hj⟩
    · simp only [List.foldl_cons, List.foldl_nil, if_neg hp] at h
      obtain ⟨h1, h2, h3⟩ := ih k h
      refine ⟨h1, Nat.lt_succ_of_lt h2, fun j hj hpj => ?_⟩
      rcases Nat.lt_succ_iff_lt_or_eq.mp hj with hj' | rfl
      · exact h3 j hj' hpj
      · exact absurd hpj hp

/-- A successful match attempt yields a position satisfying the anchor, the
head class, the span conditions, and greediness (no longer valid span). -/
theorem matchEndAt_some (t : Str) (s k : Nat) (h : matchEndAt t s = some k) :
    s < t.length ∧ isLineStart t s = true ∧ isUpperAZ (charAt t s) = true ∧
      validSpan t s k = true ∧ ∀ k', validSpan t s k' = true → k' ≤ k := by
  unfold matchEndAt at h
  by_cases hc : (decide (s < t.length) && isLineStart t s && isUpperAZ (charAt t s)) = true
  · rw [if_pos hc] at h
    unfold lastValidEnd at h
    obtain ⟨hsk, hklen, hmax⟩ := foldl_lastTrue_some _ _ _ h
    have hc' := hc
    simp only [Bool.and_eq_true, decide_eq_true_eq] at hc'
    refine ⟨hc'.1.1, hc'.1.2, hc'.2, hsk, fun k' hk' => ?_⟩
    have hk'len : k' < t.length := by
      unfold validSpan at hk'
      simp only [Bool.and_eq_true, decide_eq_true_eq] at hk'
      exact hk'.1.1.2
    exact hmax k' hk'len hk'
  · rw [if_neg hc] at h
    exact absurd h (by simp)

/-- Conversely, where the anchor and head conditions hold and some valid span
exists, the match attempt succeeds. -/
theorem matchEndAt_isSome (t : Str) (s k : Nat) (h1 : s < t.length)
    (h2 : isLineStart t s = true) (h3 : isUpperAZ (charAt t s) = true)
    (h4 : validSpan t s k = true) : ∃ k', matchEndAt t s = some k' := by
  have hc : (decide (s < t.length) && isLineStart t s && isUpperAZ (charAt t s)) = true := by
    simp [h1, h2, h3]
  unfold matchEndAt
  rw [if_pos hc]
  cases hl : lastValidEnd t s with
  | some k' => exact ⟨k', rfl⟩
  | none =>
    exfalso
    have hklen : k < t.length := by
      unfold validSpan at h4
      simp only [Bool.and_eq_true, decide_eq_true_eq] at h4
      exact h4.1.1.2
    unfold lastValidEnd at hl
    have hfalse := foldl_lastTrue_none _ _ hl k hklen
    rw [h4] at hfalse
    exact absurd hfalse (by simp)

theorem matchEndAt_none_of_ge (t : Str) (s : Nat) (h : t.length ≤ s) :
    matchEndAt t s = none := by
  unfold matchEndAt
  rw [if_neg]
  intro hc
  simp only [Bool.and_eq_true, decide_eq_true_eq] at hc
  omega

/-- The scan finds the leftmost match: a success means no earlier position in
the scanned range matches. -/
theorem firstMatchGo_some (t : Str) :
    ∀ (fuel a s k : Nat), firstMatchGo t a fuel = some (s, k) →
      a ≤ s ∧ matchEndAt t s = some k ∧
        ∀ s', a ≤ s' → s' < s → matchEndAt t s' = none := by
  intro fuel
  induction fuel with
  | zero => intro a s k h; exact absurd h (by simp [firstMatchGo])
  | succ fuel ih =>
    intro a s k h
    unfold firstMatchGo at h
    cases hm : matchEndAt t a with
    | some k0 =>
      rw [hm] at h
      obtain ⟨rfl, rfl⟩ : a = s ∧ k0 = k := by
        simpa using h
      exact ⟨Nat.le_refl a, hm, fun s' h1 h2 => absurd (Nat.lt_of_le_of_lt h1 h2)
        (Nat.lt_irrefl a).elim⟩
    | none =>
      rw [hm] at h
      obtain ⟨h1, h2, h3⟩ := ih (a + 1) s k h
      refine ⟨Nat.le_of_succ_le h1, h2, fun s' hs1 hs2 => ?_⟩
      rcases Nat.eq_or_lt_of_le hs1 with rfl | hs1'
      · exact hm
      · exact h3 s' hs1' hs2

/-- A failed scan means no position in the scanned range matches. -/
theorem firstMatchGo_none (t : Str) :
    ∀ (fuel a : Nat), firstMatchGo t a fuel = none →
      ∀ s', a ≤ s' → s' < a + fuel → matchEndAt t s' = none := by
  intro fuel
  induction fuel with
  | zero => intro a _ s' h1 h2; omega
  | succ fuel ih =>
    intro a h s' h1 h2
    unfold firstMatchGo at h
    cases hm : matchEndAt t a with
    | some k0 => rw [hm] at h; exact absurd h (by simp)
    | none =>
      rw [hm] at h
      rcases Nat.eq_or_lt_of_le h1 with rfl | h1'
      · exact hm
      · exact ih (a + 1) h s' h1' (by omega)

/-- The missed-scan direction: if every position fails to match, the scan fails. -/
theorem firstMatchGo_of_all_none (t : Str) (h : ∀ s, matchEndAt t s = none) :
    ∀ (fuel a : Nat), firstMatchGo t a fuel = none := by
  intro fuel
  induction fuel with
  | zero => intro a; rfl
  | succ fuel ih =>
    intro a
    unfold firstMatchGo
    rw [h a]
    exact ih (a + 1)

theorem firstMatchFrom_zero_none_iff (t : Str) :
    firstMatchFrom t 0 = none ↔ ∀ s, matchEndAt t s = none := by
  constructor
  · intro h s
    by_cases hs : s < t.length + 1
    · exact firstMatchGo_none t _ 0 h s (Nat.zero_le s) (by simpa using hs)
    · exact matchEndAt_none_of_ge t s (by omega)
  · intro h
    exact firstMatchGo_of_all_none t h _ 0

/-! ### Claim C4: the section-header rule -/

/-- The regex `(?m)^([A-Z][A-Z0-9\s\-:]{5,})\n` admits a match from `s` to the
newline at `k`. -/
def HeaderMatchAt (t : Str) (s k : Nat) : Prop :=
  s < t.length ∧ isLineStart t s = true ∧ isUpperAZ (charAt t s) = true ∧
    validSpan t s k = true

/-- Some section header matches somewhere in the document. -/
def HeaderMatchable (t : Str) : Prop := ∃ s k, HeaderMatchAt t s k

theorem headerMatchable_iff (t : Str) :
    HeaderMatchable t ↔ firstMatchFrom t 0 ≠ none := by
  constructor
  · rintro ⟨s, k, h1, h2, h3, h4⟩ hnone
    obtain ⟨k', hk'⟩ := matchEndAt_isSome t s k h1 h2 h3 h4
    rw [(firstMatchFrom_zero_none_iff t).mp hnone s] at hk'
    exact absurd hk' (by simp)
  · intro h
    cases hm : firstMatchFrom t 0 with
    | none => exact absurd hm h
    | some sk =>
      obtain ⟨s, k⟩ := sk
      obtain ⟨-, h2, -⟩ := firstMatchGo_some t _ 0 s k hm
      obtain ⟨hp1, hp2, hp3, hp4, -⟩ := matchEndAt_some t s k h2
      exact ⟨s, k, hp1, hp2, hp3, hp4⟩

/-- `splitGo` always returns at least one piece. -/
theorem splitGo_ne_nil (t : Str) : ∀ (fuel p : Nat), splitGo t fuel p ≠ [] := by
  intro fuel p
  cases fuel with
  | zero => simp [splitGo]
  | succ fuel =>
    unfold splitGo
    cases firstMatchFrom t p with
    | none => simp
    | some sk => obtain ⟨s, k⟩ := sk; simp

/-- With no match anywhere the split is the whole text and the content list is
the single `"General"` section (document_processor.py:52-54). -/
theorem contentList_of_no_match (t : Str) (h : firstMatchFrom t 0 = none) :
    contentList t = [(generalStr, t)] := by
  have hs : reSplitSections t = [t] := by
    unfold reSplitSections splitGo
    rw [h]
    simp
  unfold contentList
  rw [hs]

/-- With a leftmost match `(s, k)` the content list starts with the
`"Introduction"` section holding the text before the match
(document_processor.py:48-51). -/
theorem contentList_of_match (t : Str) (s k : Nat)
    (h : firstMatchFrom t 0 = some (s, k)) :
    contentList t =
      (introStr, t.take s) ::
        pairize ((t.drop s).take (k - s) :: splitGo t t.length (k + 1)) := by
  have hs : reSplitSections t =
      t.take s :: (t.drop s).take (k - s) :: splitGo t t.length (k + 1) := by
    show splitGo t (t.length + 1) 0 = _
    rw [splitGo, h]
    simp
  unfold contentList
  rw [hs]

/-- The character class of claim C4's wording: uppercase letters, digits,
spaces, hyphens, colons (no other whitespace). -/
def inClaimClass (c : Char) : Bool :=
  isUpperAZ c || isDigit09 c || c == ' ' || c == '-' || c == ':'

/-- Claim C4's header rule, written from the claim: a line starting with an
uppercase letter followed by 6 or more characters drawn from `inClaimClass`. -/
def claimHeaderLine : Str → Bool
  | [] => false
  | c :: rest => isUpperAZ c && decide (6 ≤ rest.length) && rest.all inClaimClass

/-- The newline-terminated lines of a text (the claim's headers end at a
newline, so only terminated lines are candidates). -/
def termLinesGo (cur : Str) : Str → List Str
  | [] => []
  | c :: rest =>
    if c = '\n' then cur.reverse :: termLinesGo [] rest
    else termLinesGo (c :: cur) rest

/-- All newline-terminated lines of a text. -/
def termLines (t : Str) : List Str := termLinesGo [] t

/-- Some line of the text is a header under claim C4's rule. -/
def claimHasHeader (t : Str) : Bool := (termLines t).any claimHeaderLine

/-- **C4, counterexample.**  On the document `"ABCDEF\nxyzzy abc\n"` no line
is a header under the claim's rule (the first line has only 5 characters
after the uppercase letter), so the claim requires the single section
`"General"`; but the code's regex `[A-Z][A-Z0-9\s\-:]{5,}` needs only 5
characters after the first, so `process_pdf` splits the document at
`"ABCDEF"` and produces no `"General"` section. -/
theorem contentList_header_rule_cex :
    claimHasHeader (toChars "ABCDEF\nxyzzy abc\n") = false ∧
      contentList (toChars "ABCDEF\nxyzzy abc\n") ≠
        [(generalStr, toChars "ABCDEF\nxyzzy abc\n")] ∧
      contentList (toChars "ABCDEF\nxyzzy abc\n") =
        [(introStr, []), (toChars "ABCDEF", toChars "xyzzy abc\n")] := by
  refine ⟨by decide, by decide, by decide⟩

/-- **C4 (amended).**  A section header is a match of the code's pattern: it
begins at a line start with an uppercase letter followed by **5** or more
characters drawn from uppercase letters, digits, **whitespace (including tabs
and newlines, so a match may span lines)**, hyphens, and colons, ending at a
newline, the scan taking the leftmost match and the longest such span.  The
text preceding the first match becomes section `"Introduction"`, and when no
match occurs anywhere, the entire document forms one section named
`"General"` (these two conditions are captured by `validSpan` /
`HeaderMatchAt`, whose tail span requires at least 5 class characters after
the uppercase head). -/
theorem contentList_header_rule (t : Str) :
    (contentList t = [(generalStr, t)] ↔ ¬ HeaderMatchable t) ∧
    (∀ s k, firstMatchFrom t 0 = some (s, k) →
      HeaderMatchAt t s k ∧
      (∀ s' k', HeaderMatchAt t s' k' → s ≤ s') ∧
      (∀ k', validSpan t s k' = true → k' ≤ k) ∧
      ∃ tail, contentList t = (introStr, t.take s) :: tail) := by
  constructor
  · constructor
    · intro hg hm
      rw [headerMatchable_iff] at hm
      cases hfm : firstMatchFrom t 0 with
      | none => exact hm hfm
      | some sk =>
        obtain ⟨s, k⟩ := sk
        rw [contentList_of_match t s k hfm] at hg
        have hhead : (introStr, t.take s) = (generalStr, t) := by
          exact (List.cons_eq_cons.mp hg).1
        have : introStr = generalStr := congrArg Prod.fst hhead
        exact absurd this (by decide)
    · intro hm
      have hfm : firstMatchFrom t 0 = none := by
        by_contra hne
        exact hm ((headerMatchable_iff t).mpr hne)
      exact contentList_of_no_match t hfm
  · intro s k hfm
    obtain ⟨-, hme, hleft⟩ := firstMatchGo_some t _ 0 s k hfm
    obtain ⟨hp1, hp2, hp3, hp4, hmax⟩ := matchEndAt_some t s k hme
    refine ⟨⟨hp1, hp2, hp3, hp4⟩, ?_, hmax, ?_⟩
    · intro s' k' hm'
      by_contra hlt
      obtain ⟨hq1, hq2, hq3, hq4⟩ := hm'
      obtain ⟨k'', hk''⟩ := matchEndAt_isSome t s' k' hq1 hq2 hq3 hq4
      rw [hleft s' (Nat.zero_le s') (by omega)] at hk''
      exact absurd hk'' (by simp)
    · exact ⟨_, contentList_of_match t s k hfm⟩

/-- Witness for C4's amended theorem: on `"AAA BBB\nxx\n"` the leftmost match
is `(0, 7)` and the content list starts with the (empty) `"Introduction"`
section. -/
theorem contentList_header_rule_witness :
    ∃ tail, contentList (toChars "AAA BBB\nxx\n") =
      (introStr, (toChars "AAA BBB\nxx\n").take 0) :: tail :=
  ((contentList_header_rule (toChars "AAA BBB\nxx\n")).2 0 7 (by decide)).2.2.2

/-! ### Claims C6, C8, C9, C1: the chunk loop and failure handling -/

/-- Equality of `Except` values is decidable when it is on both sides (used
only to evaluate the embedding at concrete inputs). -/
def exceptDecEq [DecidableEq ε] [DecidableEq α] : DecidableEq (Except ε α)
  | .error a, .error b =>
    if h : a = b then .isTrue (by rw [h])
    else .isFalse (by intro hc; injection hc; exact h (by assumption))
  | .error _, .ok _ => .isFalse (by intro hc; exact Except.noConfusion hc)
  | .ok _, .error _ => .isFalse (by intro hc; exact Except.noConfusion hc)
  | .ok a, .ok b =>
    if h : a = b then .isTrue (by rw [h])
    else .isFalse (by intro hc; injection hc; exact h (by assumption))

instance [DecidableEq ε] [DecidableEq α] : DecidableEq (Except ε α) := exceptDecEq

theorem range'_append_one (s m n : Nat) :
    List.range' s m ++ List.range' (s + m) n = List.range' s (m + n) := by
  have h := List.range'_append s m n 1
  rw [Nat.one_mul] at h
  rw [h, Nat.add_comm n m]

/-- The section loop hands out consecutive counter values starting at `k`. -/
theorem sectionChunksGo_ids (split : Str → Except Unit (List Str))
    (pages : List (Str × Nat)) :
    ∀ (secs : List (Str × Str)) (k : Nat) (cs : List PChunk),
      sectionChunksGo split pages k secs = .ok cs →
      cs.map (fun c => c.chunkId) = List.range' k cs.length := by
  intro secs
  induction secs with
  | nil =>
    intro k cs h
    simp only [sectionChunksGo, Except.ok.injEq] at h
    subst h
    simp
  | cons sec rest ih =>
    intro k cs h
    obtain ⟨title, body⟩ := sec
    by_cases hb : (trim body).isEmpty = true
    · simp only [sectionChunksGo, if_pos hb] at h
      exact ih k cs h
    · cases hsp : split body with
      | error e => simp [sectionChunksGo, hb, hsp] at h
      | ok csplit =>
        cases hrest : sectionChunksGo split pages (k + csplit.length) rest with
        | error e => simp [sectionChunksGo, hb, hsp, hrest] at h
        | ok more =>
          simp only [sectionChunksGo, if_neg hb, hsp, hrest, Except.ok.injEq] at h
          subst h
          have hmore := ih (k + csplit.length) more hrest
          rw [List.map_append, hmore]
          have h1 : ((csplit.enum.map (fun p =>
              ({ text := p.2, page := pageForChunk pages p.2, chunkId := k + p.1,
                 sectionTitle := trim title } : PChunk)))).map (fun c => c.chunkId)
              = csplit.enum.map (fun p => k + p.1) := by
            rw [List.map_map]
            rfl
          have h2 : csplit.enum.map (fun p : Nat × Str => k + p.1)
              = (csplit.enum.map Prod.fst).map (fun n => k + n) := by
            rw [List.map_map]
            rfl
          rw [h1, h2, List.enum_map_fst]
          have h3 : (List.range csplit.length).map (fun n => k + n)
              = List.range' k csplit.length :=
            (List.range'_eq_map_range k csplit.length).symm
          rw [h3]
          have h4 : ((csplit.enum.map (fun p =>
              ({ text := p.2, page := pageForChunk pages p.2, chunkId := k + p.1,
                 sectionTitle := trim title } : PChunk))) ++ more).length
              = csplit.length + more.length := by
            simp [List.length_append, List.length_map, List.enum_length]
          rw [h4]
          exact range'_append_one k csplit.length more.length

/-- **C6.**  In one successful run of `process_pdf` the `chunk_id` counter
values are exactly `0, 1, 2, ...` in output order across the whole document:
pairwise distinct, strictly increasing, and not reset at section boundaries
(document_processor.py:63-90). -/
theorem process_pdf_chunk_ids (split : Str → Except Unit (List Str)) (o : OpenResult)
    (cs : List PChunk) (h : pdfBody split o = .ok cs) :
    cs.map (fun c => c.chunkId) = List.range cs.length ∧
      (cs.map (fun c => c.chunkId)).Pairwise (fun a b => a < b) := by
  have hids : cs.map (fun c => c.chunkId) = List.range cs.length := by
    cases o with
    | missing => simp [pdfBody] at h
    | unreadable => simp [pdfBody] at h
    | opened prs =>
      cases hext : extractPages prs with
      | error e => simp [pdfBody, hext] at h
      | ok raw =>
        cases hsec : sectionChunksGo split (pagesContent raw) 0
            (contentList (fullTextGo raw)) with
        | error e => simp [pdfBody, hext, hsec] at h
        | ok cs' =>
          simp only [pdfBody, hext, hsec, Except.ok.injEq] at h
          subst h
          have hrr := sectionChunksGo_ids split (pagesContent raw)
            (contentList (fullTextGo raw)) 0 cs' hsec
          rwa [← List.range_eq_range'] at hrr
  refine ⟨hids, ?_⟩
  rw [hids]
  exact List.pairwise_lt_range cs.length

/-- Witness for C6: a one-page document with two header sections produces two
chunks with ids 0 and 1. -/
theorem process_pdf_chunk_ids_witness :
    ([⟨toChars "xx", .pg 1, 0, toChars "AAA BBB"⟩,
      ⟨toChars "yy", .pg 1, 1, toChars "CCC DDD"⟩] : List PChunk).map
        (fun c => c.chunkId) = List.range 2 :=
  (process_pdf_chunk_ids (fun t => Except.ok [trim t])
    (OpenResult.opened [Except.ok (toChars "AAA BBB\nxx\nCCC DDD\nyy\n")])
    [⟨toChars "xx", .pg 1, 0, toChars "AAA BBB"⟩,
     ⟨toChars "yy", .pg 1, 1, toChars "CCC DDD"⟩] (by decide)).1

/-- **C8.**  Whenever the body of `process_pdf` fails, the caller receives
the empty chunk sequence, never a partial one (the `except` handlers at
document_processor.py:95-100); a missing file is classified `NotFound` and
any extraction failure `ProcessingError`. -/
theorem process_pdf_fail_closed (split : Str → Except Unit (List Str))
    (o : OpenResult) (e : PdfFailure) (h : pdfBody split o = .error e) :
    process_pdf split o = [] ∧
    pdfBody split OpenResult.missing = .error PdfFailure.notFound ∧
    pdfBody split OpenResult.unreadable = .error PdfFailure.processingError ∧
    ∀ (prs : List (Except Unit Str)) (e' : Unit), extractPages prs = .error e' →
      pdfBody split (OpenResult.opened prs) = .error PdfFailure.processingError := by
  refine ⟨?_, rfl, rfl, ?_⟩
  · unfold process_pdf
    rw [h]
  · intro prs e' hext
    simp [pdfBody, hext]

/-- Witness for C8: the missing-file case. -/
theorem process_pdf_fail_closed_witness :
    process_pdf (fun t => Except.ok [t]) OpenResult.missing = [] :=
  (process_pdf_fail_closed (fun t => Except.ok [t]) OpenResult.missing
    PdfFailure.notFound rfl).1

theorem extractPages_of_all_empty :
    ∀ prs : List (Except Unit Str), (∀ r ∈ prs, r = .ok []) →
      extractPages prs = .ok (List.replicate prs.length []) := by
  intro prs
  induction prs with
  | nil => intro _; rfl
  | cons r rest ih =>
    intro h
    have hr : r = .ok [] := h r (List.mem_cons_self r rest)
    subst hr
    unfold extractPages
    rw [ih (fun x hx => h x (List.mem_cons_of_mem _ hx))]
    rfl

theorem pagesContentGo_all_empty : ∀ (n i : Nat),
    pagesContentGo i (List.replicate n []) = [] := by
  intro n
  induction n with
  | zero => intro i; rfl
  | succ n ih =>
    intro i
    rw [List.replicate_succ]
    unfold pagesContentGo
    rw [if_pos (show ([] : Str).isEmpty = true from rfl)]
    exact ih (i + 1)

theorem fullTextGo_all_empty : ∀ n : Nat, fullTextGo (List.replicate n []) = [] := by
  intro n
  induction n with
  | zero => rfl
  | succ n ih =>
    rw [List.replicate_succ]
    unfold fullTextGo
    rw [if_pos (show ([] : Str).isEmpty = true from rfl), ih]
    rfl

/-- **C9.**  A document in which no page yields extractable text produces the
empty chunk sequence with no error: every page is skipped, `full_text` is
empty, and the single `"General"` section is discarded as blank
(document_processor.py:31-37 and 65-68). -/
theorem process_pdf_no_extractable_text (split : Str → Except Unit (List Str))
    (prs : List (Except Unit Str)) (h : ∀ r ∈ prs, r = .ok []) :
    pdfBody split (OpenResult.opened prs) = .ok [] ∧
    process_pdf split (OpenResult.opened prs) = [] := by
  have h1 := extractPages_of_all_empty prs h
  have hbody : pdfBody split (OpenResult.opened prs) = .ok [] := by
    have hcl : contentList [] = [(generalStr, [])] := by decide
    simp only [pdfBody, h1, pagesContent, pagesContentGo_all_empty,
      fullTextGo_all_empty, hcl]
    rfl
  refine ⟨hbody, ?_⟩
  unfold process_pdf
  rw [hbody]

/-- Witness for C9: one page whose `extract_text()` returns the empty string. -/
theorem process_pdf_no_extractable_text_witness :
    pdfBody (fun t => Except.ok [t]) (OpenResult.opened [Except.ok []]) = .ok [] :=
  (process_pdf_no_extractable_text (fun t => Except.ok [t]) [Except.ok []]
    (by decide)).1

/-- **C1 (code-bug exhibit).**  The slice searched by the page-attribution
loop is `chunk_text[:max(50, len(chunk_text))]`, which is always the whole
chunk (third conjunct: the `50` is dead code, contradicting the inline
comment "We search for a portion of the chunk" — `max` should be `min`).  On
a two-page document (page 1: fifty `a`s, page 2: `bbbb`) whose single chunk
spans the page boundary, the code therefore attributes page `"N/A"`, while
the spec's reading (the 50-character leading substring) attributes page 1. -/
theorem pageForChunk_dead_max_cex :
    (process_pdf (fun t => Except.ok [trim t])
        (OpenResult.opened [Except.ok (List.replicate 50 'a'),
          Except.ok (toChars "bbbb")])).map (fun c => c.text)
      = [trim (List.replicate 50 'a' ++ toChars "\nbbbb\n")] ∧
    (process_pdf (fun t => Except.ok [trim t])
        (OpenResult.opened [Except.ok (List.replicate 50 'a'),
          Except.ok (toChars "bbbb")])).map (fun c => c.page)
      = [PageNum.na] ∧
    pageForChunkSpecIntent
        (pagesContent [List.replicate 50 'a', toChars "bbbb"])
        (trim (List.replicate 50 'a' ++ toChars "\nbbbb\n")) = PageNum.pg 1 ∧
    ∀ chunkText : Str, chunkText.take (max 50 chunkText.length) = chunkText := by
  refine ⟨by decide, by decide, by decide, ?_⟩
  intro ct
  exact List.take_of_length_le (Nat.le_max_right 50 ct.length)

/-! ### Claim C5: the empty Index (src/rag/retrieval.py:73-120, 123-145) -/

/-- `get_advanced_retriever` (retrieval.py:73-120).  The retrieval pipeline it
assembles over a non-empty corpus (BM25, Chroma, multi-query expansion and the
re-ranker, all external library components built from `all_docs`) is
abstracted as the parameter `pipeline`; the repository code deciding claim C5
is the empty-corpus guard at lines 79-82, which returns `None` before building
anything. -/
def get_advanced_retriever (pipeline : List LCDoc → Str → List LCDoc)
    (allDocs : List LCDoc) : Option (Str → List LCDoc) :=
  if allDocs.isEmpty then none else some (pipeline allDocs)

/-- `get_rag_chain` (retrieval.py:123-145): wraps the advanced retriever into
the QA chain, returning `None` when the retriever is `None` (lines 129-131);
otherwise the chain retrieves with the retriever it wraps. -/
def get_rag_chain (pipeline : List LCDoc → Str → List LCDoc)
    (allDocs : List LCDoc) : Option (Str → List LCDoc) :=
  match get_advanced_retriever pipeline allDocs with
  | none => none
  | some r => some r

/-- The source passages a query yields at the caller (simple_demo.py:53-92):
when the chain is `None` the caller returns before serving any query, so no
passages are ever produced and nothing is raised; otherwise the chain's
retriever runs on the query. -/
def retrievedSources (pipeline : List LCDoc → Str → List LCDoc)
    (allDocs : List LCDoc) (q : Str) : List LCDoc :=
  match get_rag_chain pipeline allDocs with
  | none => []
  | some r => r q

/-- **C5.**  With no chunks in the Index, the retriever and chain are `None`
(retrieval.py:79-82, 129-131) and retrieval yields the empty passage sequence
for every query, with no exception (every branch is total and the `pipeline`
components are never invoked). -/
theorem retrieve_empty_index (pipeline : List LCDoc → Str → List LCDoc) (q : Str) :
    get_advanced_retriever pipeline [] = none ∧
    get_rag_chain pipeline [] = none ∧
    retrievedSources pipeline [] q = [] :=
  ⟨rfl, rfl, rfl⟩

/-! ### Claim C7: hybrid fusion (spec §4.5) -/

/-- Modelled from the spec: Hybrid Fusion (spec §2, §4.5, §8).  The fusion
step is performed by LangChain's `EnsembleRetriever`, constructed with
`weights=[0.5, 0.5]` at src/rag/retrieval.py:98-101 but implemented outside
this repository.  Following the spec, each result list contributes a weighted
rank-reciprocal score to every chunk it contains (rank counted from 1, with
the conventional damping constant 60), and a chunk found in both lists
receives the combined sum rather than being counted twice.
`rankContribution w l d` is the individual weighted score list `l` assigns to
chunk `d`: the sum of `w / (rank + 60)` over the occurrences of `d` in `l`. -/
def rankContributionGo (w : Rat) (r : Nat) (d : Str) : List Str → Rat
  | [] => 0
  | x :: xs => (if x = d then w / ((r : Rat) + 60) else 0) + rankContributionGo w (r + 1) d xs

/-- Modelled from the spec: the individual weighted score of chunk `d` in one
result list, with ranks counted from 1. -/
def rankContribution (w : Rat) (l : List Str) (d : Str) : Rat :=
  rankContributionGo w 1 d l

/-- Modelled from the spec: the combined weighted score of a chunk under
Hybrid Fusion (spec §4.5) — the sum of the two individual contributions. -/
def fusedScore (wl ws : Rat) (lex sem : List Str) (d : Str) : Rat :=
  rankContribution wl lex d + rankContribution ws sem d

/-- Keep the first occurrence of every chunk, dropping later duplicates: the
spec's deduplication with stable first-seen order (§4.5). -/
def dedupFirst : List Str → List Str
  | [] => []
  | x :: xs => x :: dedupFirst (xs.filter (fun y => decide (y ≠ x)))
termination_by l => l.length
decreasing_by
  simp only [List.length_cons]
  exact Nat.lt_succ_of_le (List.length_filter_le _ _)

/-- Modelled from the spec: `fuse(lexical_results, semantic_results, weights)`
(spec §4.5): the union of both candidate lists in first-seen order,
deduplicated, ordered by combined weighted score (descending, stable). -/
def hybridFuse (wl ws : Rat) (lex sem : List Str) : List Str :=
  sortDescBy (fusedScore wl ws lex sem) (dedupFirst (lex ++ sem))

theorem mem_dedupFirst (a : Str) :
    ∀ (n : Nat) (l : List Str), l.length ≤ n → (a ∈ dedupFirst l ↔ a ∈ l) := by
  intro n
  induction n with
  | zero =>
    intro l hl
    obtain rfl : l = [] := List.length_eq_zero.mp (Nat.le_zero.mp hl)
    rw [dedupFirst]
  | succ n ih =>
    intro l hl
    cases l with
    | nil => rw [dedupFirst]
    | cons x xs =>
      rw [dedupFirst]
      have hxs : xs.length ≤ n := by simpa using hl
      have hlen : (xs.filter (fun y => decide (y ≠ x))).length ≤ n :=
        le_trans (List.length_filter_le _ _) hxs
      constructor
      · intro h
        rcases List.mem_cons.mp h with rfl | h
        · exact List.mem_cons_self a xs
        · have := (ih _ hlen).mp h
          exact List.mem_cons_of_mem x (List.mem_of_mem_filter this)
      · intro h
        rcases List.mem_cons.mp h with rfl | h
        · exact List.mem_cons_self a _
        · by_cases hax : a = x
          · exact hax ▸ List.mem_cons_self a _
          · refine List.mem_cons_of_mem x ((ih _ hlen).mpr ?_)
            exact List.mem_filter.mpr ⟨h, by simpa using hax⟩

theorem nodup_dedupFirst : ∀ (n : Nat) (l : List Str), l.length ≤ n →
    (dedupFirst l).Nodup := by
  intro n
  induction n with
  | zero =>
    intro l hl
    obtain rfl : l = [] := List.length_eq_zero.mp (Nat.le_zero.mp hl)
    rw [dedupFirst]
    exact List.nodup_nil
  | succ n ih =>
    intro l hl
    cases l with
    | nil => rw [dedupFirst]; exact List.nodup_nil
    | cons x xs =>
      rw [dedupFirst]
      have hxs : xs.length ≤ n := by simpa using hl
      have hlen : (xs.filter (fun y => decide (y ≠ x))).length ≤ n :=
        le_trans (List.length_filter_le _ _) hxs
      refine List.nodup_cons.mpr ⟨?_, ih _ hlen⟩
      intro hmem
      have hx := (mem_dedupFirst x _ _ (le_refl _)).mp hmem
      have := (List.mem_filter.mp hx).2
      simp at this

theorem count_one_of_nodup_mem {α : Type} [BEq α] [LawfulBEq α] {l : List α} {a : α}
    (hn : l.Nodup) (hm : a ∈ l) : l.count a = 1 := by
  induction l with
  | nil => cases hm
  | cons x xs ih =>
    rcases List.mem_cons.mp hm with rfl | hm'
    · rw [List.count_cons_self]
      have hx : a ∉ xs := (List.nodup_cons.mp hn).1
      rw [List.count_eq_zero.mpr hx]
    · have hneq : a ≠ x := by
        rintro rfl
        exact (List.nodup_cons.mp hn).1 hm'
      rw [List.count_cons_of_ne hneq]
      exact ih (List.nodup_cons.mp hn).2 hm'

theorem rankContributionGo_nonneg (w : Rat) (hw : 0 ≤ w) (d : Str) :
    ∀ (l : List Str) (r : Nat), 0 ≤ rankContributionGo w r d l := by
  intro l
  induction l with
  | nil => intro r; exact le_refl 0
  | cons x xs ih =>
    intro r
    refine add_nonneg ?_ (ih (r + 1))
    by_cases hx : x = d
    · rw [if_pos hx]
      refine div_nonneg hw ?_
      positivity
    · rw [if_neg hx]

theorem rankContribution_nonneg (w : Rat) (hw : 0 ≤ w) (l : List Str) (d : Str) :
    0 ≤ rankContribution w l d :=
  rankContributionGo_nonneg w hw d l 1

theorem rankContributionGo_pos (w : Rat) (hw : 0 < w) (d : Str) :
    ∀ (l : List Str) (r : Nat), d ∈ l → 0 < rankContributionGo w r d l := by
  intro l
  induction l with
  | nil => intro r hm; cases hm
  | cons x xs ih =>
    intro r hm
    rcases List.mem_cons.mp hm with rfl | hm'
    · rw [rankContributionGo, if_pos rfl]
      have hpos : 0 < w / ((r : Rat) + 60) := by positivity
      exact add_pos_of_pos_of_nonneg hpos (rankContributionGo_nonneg w (le_of_lt hw) _ xs (r + 1))
    · rw [rankContributionGo]
      refine add_pos_of_nonneg_of_pos ?_ (ih (r + 1) hm')
      by_cases hx : x = d
      · rw [if_pos hx]
        positivity
      · rw [if_neg hx]

theorem rankContribution_pos (w : Rat) (hw : 0 < w) (l : List Str) (d : Str)
    (hm : d ∈ l) : 0 < rankContribution w l d :=
  rankContributionGo_pos w hw d l 1 hm

/-- **C7.**  Fusing any lexical and semantic result sets with equal weights
`0.5 / 0.5`: the fused output is deduplicated and ordered by combined
weighted score, and a chunk present in both inputs appears exactly once, with
a combined score at least the maximum of its two individual scores (both of
which are positive, so the chunk is not counted twice yet loses nothing). -/
theorem hybridFuse_dedup_sorted (lex sem : List Str) (d : Str)
    (hl : d ∈ lex) (hs : d ∈ sem) :
    (hybridFuse (1/2) (1/2) lex sem).count d = 1 ∧
    (hybridFuse (1/2) (1/2) lex sem).Nodup ∧
    (hybridFuse (1/2) (1/2) lex sem).Pairwise
      (fun a b => fusedScore (1/2) (1/2) lex sem b ≤ fusedScore (1/2) (1/2) lex sem a) ∧
    max (rankContribution (1/2) lex d) (rankContribution (1/2) sem d) ≤
      fusedScore (1/2) (1/2) lex sem d ∧
    0 < rankContribution (1/2) lex d ∧ 0 < rankContribution (1/2) sem d := by
  have hperm := sortDescBy_perm (fusedScore (1/2) (1/2) lex sem) (dedupFirst (lex ++ sem))
  have hnd : (dedupFirst (lex ++ sem)).Nodup :=
    nodup_dedupFirst (lex ++ sem).length _ (le_refl _)
  have hmem : d ∈ dedupFirst (lex ++ sem) :=
    (mem_dedupFirst d (lex ++ sem).length _ (le_refl _)).mpr
      (List.mem_append.mpr (Or.inl hl))
  simp only [hybridFuse]
  have h1 : 0 < rankContribution (1/2) lex d :=
    rankContribution_pos _ (by norm_num) _ _ hl
  have h2 : 0 < rankContribution (1/2) sem d :=
    rankContribution_pos _ (by norm_num) _ _ hs
  refine ⟨?_, ?_, ?_, ?_, h1, h2⟩
  · exact count_one_of_nodup_mem (hperm.nodup_iff.mpr hnd) (hperm.mem_iff.mpr hmem)
  · exact hperm.nodup_iff.mpr hnd
  · exact sortDescBy_pairwise _ _
  · exact max_le (le_add_of_nonneg_right (le_of_lt h2))
      (le_add_of_nonneg_left (le_of_lt h1))

/-- Witness for C7: the chunk `"x"` sits in both result sets. -/
theorem hybridFuse_dedup_sorted_witness :
    (hybridFuse (1/2) (1/2) [toChars "x"] [toChars "y", toChars "x"]).count
      (toChars "x") = 1 :=
  (hybridFuse_dedup_sorted [toChars "x"] [toChars "y", toChars "x"] (toChars "x")
    (by decide) (by decide)).1

end RagAssist

